import Mathlib

/-!
Verification of the manifest-generation core of `future_land_use_RO.ipynb`
(`create_and_write_ro_crate_metadata` and its nested helpers `should_omit`,
`list_directory_contents`, `get_description_from_resource_file`).

The Python code is shallowly embedded:
* a directory tree on disk is an `FsForest` (the ordered listing that
  `os.walk` enumerates);
* `os.walk` with the in-place pruning `dirs[:] = [d for d in dirs if not
  should_omit(d)]` becomes the structural functions `fileEntriesOf`,
  `dirEntriesOf`, `walkSubs`;
* the ambient effects of the code are explicit parameters: `ex` models
  `os.path.exists` (resolution of a relative path against the process
  working directory), `yam` models `yaml.safe_load` on the contents of a
  file, `md5` models `morpc.md5`, `now` models `datetime.now().isoformat()`;
* Python dict mutation plus aliasing (the same entity object is reachable
  from the `@graph` list and from `path_to_entity`) is modelled by keeping
  the entities in a positional list and letting `path_to_entity` map path
  strings to positions;
* exceptions are modelled with `Except PyErr`.
-/

/-- Python's `str.endswith`, as a computation the kernel can evaluate. -/
def endsWithS (s suffix : String) : Bool :=
  suffix.data.isSuffixOf s.data

/-- Components of a path joined with the separator, as `os.path.join` /
`os.path.relpath` produce for the walk entries. -/
def joinPath : List String → String
  | [] => ""
  | [s] => s
  | s :: rest => s ++ "/" ++ joinPath rest

/-- Split a character list on a separator character. -/
def splitOnChar (c : Char) (acc : List Char) : List Char → List (List Char)
  | [] => [acc.reverse]
  | x :: xs =>
    if x = c then acc.reverse :: splitOnChar c [] xs
    else splitOnChar c (x :: acc) xs

/-- Model of `os.path.basename`: the part of a path string after the last separator. -/
def basenameStr (s : String) : String :=
  String.mk ((splitOnChar '/' [] s.data).getLastD [])

/-- Model of `os.path.relpath(p, root)` for a walk-internal directory, given its
components relative to the root: `"."` when it is the root itself. -/
def relStr (l : List String) : String :=
  if l.isEmpty then "." else joinPath l

/-- Index of the last occurrence of a character in a character list. -/
def lastIdxOf (c : Char) : List Char → Option Nat
  | [] => none
  | x :: xs =>
    match lastIdxOf c xs with
    | some i => some (i + 1)
    | none => if x = c then some 0 else none

/-- The root part of `os.path.splitext`: split at the last dot of the final
path component unless all characters of that component before the dot are
dots themselves (so `.bashrc`, `..gz` keep their name whole). -/
def splitextRootCs (cs : List Char) : List Char :=
  match lastIdxOf '.' cs with
  | none => cs
  | some d =>
    let s0 : Nat :=
      match lastIdxOf '/' cs with
      | none => 0
      | some s => s + 1
    if s0 ≤ d ∧ ((cs.drop s0).take (d - s0)).any (· ≠ '.') then
      cs.take d
    else cs

/-- Model of `os.path.splitext(s)[0]` on a path string. -/
def stemStr (s : String) : String :=
  String.mk (splitextRootCs s.data)

/-- The sidecar-descriptor suffix used throughout the notebook. -/
def descriptorSuffix : String := ".resource.yaml"

/-- Predicate `should_omit` from the notebook: basename ends with a reserved suffix or
is literally one of `omit_names`. -/
def should_omit (omit_names : List String) (name : String) : Bool :=
  (endsWithS name ".git" || endsWithS name ".ipynb_checkpoints")
    || omit_names.contains name

/-- A directory listing as `os.walk` sees it: an ordered sequence of file
names and subdirectories (each subdirectory carrying its own listing). -/
inductive FsForest : Type where
  | fnil : FsForest
  | ffile : String → FsForest → FsForest
  | fdir : String → FsForest → FsForest → FsForest
deriving DecidableEq, Repr

/-- File vs directory, the `"type"` field of a walk record. -/
inductive EType : Type where
  | file : EType
  | directory : EType
deriving DecidableEq, Repr

/-- The `"type"` strings the code stores in the records and entities. -/
def etypeName : EType → String
  | .file => "File"
  | .directory => "Directory"

/-- One record produced by `list_directory_contents`: the `"type"`,
`"path"` (components relative to the walk root, joined on use) and
`"root"` (the `os.walk` root directory, kept as components relative to
the walk root; the code stores the absolute path and later takes
`os.path.relpath(root, directory)`, which yields exactly these
components). -/
structure Entry : Type where
  type : EType
  path : List String
  root : List String
deriving DecidableEq, Repr

/-- Path of an entry as the code's path string. -/
def Entry.pathStr (e : Entry) : String := joinPath e.path

/-- The `File` records one `os.walk` step contributes: each non-omitted
file of the listing, in listing order. -/
def fileEntriesOf (omit_names : List String) (rp : List String) :
    FsForest → List Entry
  | .fnil => []
  | .ffile n ts =>
    (if should_omit omit_names n then [] else [⟨.file, rp ++ [n], rp⟩])
      ++ fileEntriesOf omit_names rp ts
  | .fdir _ _ ts => fileEntriesOf omit_names rp ts

/-- The `Directory` records one `os.walk` step contributes: each
non-omitted subdirectory of the listing, in listing order (the code
filters `dirs` in place, then re-checks `should_omit` in the loop; both
checks use the same predicate). -/
def dirEntriesOf (omit_names : List String) (rp : List String) :
    FsForest → List Entry
  | .fnil => []
  | .ffile _ ts => dirEntriesOf omit_names rp ts
  | .fdir n _ ts =>
    (if should_omit omit_names n then [] else [⟨.directory, rp ++ [n], rp⟩])
      ++ dirEntriesOf omit_names rp ts

/-- The records of all deeper `os.walk` steps: for each non-omitted
subdirectory, in order, the full walk of that subdirectory (files first,
then subdirectories, then deeper steps); omitted directories are not
descended into. -/
def walkSubs (omit_names : List String) (rp : List String) :
    FsForest → List Entry
  | .fnil => []
  | .ffile _ ts => walkSubs omit_names rp ts
  | .fdir n cs ts =>
    (if should_omit omit_names n then []
     else
       fileEntriesOf omit_names (rp ++ [n]) cs
         ++ dirEntriesOf omit_names (rp ++ [n]) cs
         ++ walkSubs omit_names (rp ++ [n]) cs)
      ++ walkSubs omit_names rp ts

/-- All records the walk of a directory (at relative components `rp`, with
listing `cs`) produces, in `os.walk` order. -/
def walkChildren (omit_names : List String) (rp : List String)
    (cs : FsForest) : List Entry :=
  fileEntriesOf omit_names rp cs ++ dirEntriesOf omit_names rp cs
    ++ walkSubs omit_names rp cs

/-- Function `list_directory_contents(directory)` from the notebook, for the tree
rooted at the walked directory. -/
def list_directory_contents (omit_names : List String) (tree : FsForest) :
    List Entry :=
  walkChildren omit_names [] tree

example :
    list_directory_contents ["tmp"]
      (.ffile "a.csv" (.fdir "b" (.ffile "x.txt" .fnil) .fnil)) =
      [⟨.file, ["a.csv"], []⟩, ⟨.directory, ["b"], []⟩,
        ⟨.file, ["b", "x.txt"], ["b"]⟩] := by decide

example : stemStr "a/b.tar.gz" = "a/b.tar" := by decide
example : stemStr "a.b/c" = "a.b/c" := by decide
example : stemStr ".bashrc" = ".bashrc" := by decide
example : stemStr "x/.bashrc" = "x/.bashrc" := by decide
example : stemStr "..gz" = "..gz" := by decide
example : stemStr "a.csv" = "a" := by decide
example : basenameStr "a/b/c.txt" = "c.txt" := by decide
example : basenameStr "/home/me/proj" = "proj" := by decide

/-- What `yaml.safe_load` can return for an existing file: a syntax error,
or a parsed document that is empty (`None`), a bare scalar, a sequence, or
a key-value mapping (values kept as strings; only `description` is read). -/
inductive Yaml : Type where
  | invalid : Yaml
  | ynull : Yaml
  | yscalar : String → Yaml
  | ylist : Yaml
  | ymap : List (String × String) → Yaml
deriving DecidableEq, Repr

/-- The Python exceptions the embedded code can raise: `yaml.YAMLError`
from `yaml.safe_load` on malformed syntax, and `AttributeError` from
calling `.get` on a parse result that is not a mapping.  `structuralError`
names the spec's `StructuralError` kind; no code path produces it. -/
inductive PyErr : Type where
  | yamlError : PyErr
  | attributeError : PyErr
  | structuralError : PyErr
deriving DecidableEq, Repr

/-- Function `get_description_from_resource_file` from the notebook.  `ex` is
`os.path.exists` (relative paths resolved against the process working
directory), `yam` gives the `yaml.safe_load` outcome for an existing
file.  `resource_data.get('description', '')` succeeds only on a mapping;
on `None`, a scalar or a sequence it raises `AttributeError`, and a syntax
error in `yaml.safe_load` raises `yaml.YAMLError`. -/
def get_description_from_resource_file (ex : String → Bool)
    (yam : String → Yaml) (resource_file : String) : Except PyErr String :=
  if ex resource_file then
    match yam resource_file with
    | .invalid => .error .yamlError
    | .ymap kvs => .ok ((kvs.lookup "description").getD "")
    | _ => .error .attributeError
  else .ok ""

/-- One JSON object of the `@graph`.  `none` in an `Option` field models
the key being absent from the Python dict. -/
structure Entity : Type where
  id : String
  etype : String
  name : String
  dateCreated : Option String := none
  description : Option String := none
  contentChecksum : Option (String × String) := none
  hasPart : Option (List String) := none
  isDescribedBy : Option String := none
deriving DecidableEq, Repr

/-- The serialized document: `@context` and `@graph`. -/
structure Metadata : Type where
  context : String
  graph : List Entity
deriving DecidableEq, Repr

/-- The root `Dataset` entity the code appends to the graph first. -/
def rootEntity (dirStr now : String) : Entity :=
  { id := "./", etype := "Dataset", name := basenameStr dirStr,
    dateCreated := some now, hasPart := some [] }

/-- First-pass creation of the entity for one walk record: id, type and
name always; for a `File` whose path does not end in `.resource.yaml`,
the optional `description` (looked up on disk via `os.path.exists` on the
relative candidate path) and the unconditional MD5 `contentChecksum`
(`morpc.md5` on `os.path.join(directory, path)`, modelled by `md5`). -/
def mkEntity (ex : String → Bool) (yam : String → Yaml)
    (md5 : String → String) (dirStr : String) (item : Entry) :
    Except PyErr Entity :=
  let ps := item.pathStr
  let base : Entity :=
    { id := ps, etype := etypeName item.type, name := basenameStr ps }
  if item.type = .file ∧ endsWithS ps descriptorSuffix = false then do
    let resource_file := stemStr ps ++ descriptorSuffix
    let e1 ←
      if ex resource_file then do
        let d ← get_description_from_resource_file ex yam resource_file
        pure { base with description := some d }
      else pure base
    pure { e1 with contentChecksum := some ("MD5", md5 (dirStr ++ "/" ++ ps)) }
  else pure base

/-- The first pass of the builder: one entity per record, in order; the
first exception aborts the whole build. -/
def pass1 (ex : String → Bool) (yam : String → Yaml) (md5 : String → String)
    (dirStr : String) : List Entry → Except PyErr (List Entity)
  | [] => .ok []
  | it :: rest => do
    let e ← mkEntity ex yam md5 dirStr it
    let es ← pass1 ex yam md5 dirStr rest
    pure (e :: es)

/-- The dict `path_to_entity` as a map from path strings to positions in the
first-pass entity list; a later record with the same path overwrites the
earlier one, exactly like the dict assignment in the loop. -/
def buildP2E (i : Nat) : List Entry → List (String × Nat)
  | [] => []
  | it :: rest => buildP2E (i + 1) rest ++ [(it.pathStr, i)]

/-- Replace the entity at one position, leaving the rest unchanged. -/
def listModify (f : Entity → Entity) : Nat → List Entity → List Entity
  | _, [] => []
  | 0, e :: es => f e :: es
  | n + 1, e :: es => e :: listModify f n es

/-- The update `parent["hasPart"].append({"@id": child})`, creating the key with `[]`
first when it is absent. -/
def addHasPart (child : String) (e : Entity) : Entity :=
  { e with hasPart := some ((e.hasPart.getD []) ++ [child]) }

/-- The update `item_entity["isDescribedBy"] = {"@id": resource_file}`. -/
def setDescribedBy (rf : String) (e : Entity) : Entity :=
  { e with isDescribedBy := some rf }

/-- The parent id the second pass computes for a record:
`os.path.relpath(item["root"], directory)`, with `"."` replaced by
`"./"`. -/
def parentId (item : Entry) : String :=
  let pp := relStr item.root
  if pp = "." then "./" else pp

/-- Apply an update to the position a `path_to_entity` lookup returned, or
to nothing when the lookup missed (`path_to_entity.get(..., None)` /
`if parent_entity:`). -/
def matchModify (f : Entity → Entity) (o : Option Nat) (es : List Entity) :
    List Entity :=
  match o with
  | some i => listModify f i es
  | none => es

/-- The `isDescribedBy` step of one second-pass iteration: for a `File`
record not ending in `.resource.yaml` whose candidate descriptor path is
a key of `path_to_entity`, set `isDescribedBy` on the entity
`path_to_entity` holds for the record's own path. -/
def pass2stepDB (p2e : List (String × Nat)) (item : Entry)
    (es : List Entity) : List Entity :=
  if item.type = .file ∧ endsWithS item.pathStr descriptorSuffix = false then
    if (p2e.lookup (stemStr item.pathStr ++ descriptorSuffix)).isSome then
      matchModify (setDescribedBy (stemStr item.pathStr ++ descriptorSuffix))
        (p2e.lookup item.pathStr) es
    else es
  else es

/-- One iteration of the second pass: append the record's id to the
`hasPart` of the entity `path_to_entity` holds for the parent id (the
root entity is not in `path_to_entity`, so a missing parent id silently
appends nowhere), then the `isDescribedBy` step. -/
def pass2step (p2e : List (String × Nat)) (es : List Entity) (item : Entry) :
    List Entity :=
  pass2stepDB p2e item
    (matchModify (addHasPart item.pathStr) (p2e.lookup (parentId item)) es)

/-- The second pass over all records. -/
def pass2 (p2e : List (String × Nat)) (contents : List Entry)
    (es : List Entity) : List Entity :=
  contents.foldl (pass2step p2e) es

/-- The fixed `@context` of the manifest. -/
def contextUri : String := "https://w3id.org/ro/crate/1.1/context"

/-- The in-memory manifest the builder assembles from a record list: the
root entity first, then one entity per record in walk order, with the
second pass's `hasPart` / `isDescribedBy` updates applied through
`path_to_entity`. -/
def buildFromContents (ex : String → Bool) (yam : String → Yaml)
    (md5 : String → String) (dirStr now : String) (contents : List Entry) :
    Except PyErr Metadata :=
  match pass1 ex yam md5 dirStr contents with
  | .error e => .error e
  | .ok es =>
    .ok { context := contextUri,
          graph := rootEntity dirStr now :: pass2 (buildP2E 0 contents) contents es }

/-- The fixed destination file name of the manifest. -/
def manifestDest : String := "ro-crate-metadata.json"

/-- Filesystem operations of the writing step. -/
inductive FsOp : Type where
  | openTrunc : String → FsOp
  | writeDoc : String → Metadata → FsOp
  | closeFile : String → FsOp
  | rename : String → String → FsOp
deriving DecidableEq, Repr

/-- The writing step of the notebook:
`with open('ro-crate-metadata.json', 'w') as f: json.dump(metadata, f)` —
a truncating open of the destination itself, the dump, and the close on
leaving the `with` block. -/
def writeMetadataOps (m : Metadata) : List FsOp :=
  [.openTrunc manifestDest, .writeDoc manifestDest m, .closeFile manifestDest]

/-- Function `create_and_write_ro_crate_metadata(directory, omit_names)`: walk the
tree, build the manifest, and return it together with the trace of
filesystem operations the final write performs. -/
def create_and_write_ro_crate_metadata (ex : String → Bool)
    (yam : String → Yaml) (md5 : String → String) (dirStr now : String)
    (omit_names : List String) (tree : FsForest) :
    Except PyErr (Metadata × List FsOp) := do
  let m ← buildFromContents ex yam md5 dirStr now
    (list_directory_contents omit_names tree)
  pure (m, writeMetadataOps m)

/-- A disk on which no candidate descriptor path exists. -/
def exFalse : String → Bool := fun _ => false

/-- A `yaml.safe_load` that returns the empty document (`None`). -/
def yamNone : String → Yaml := fun _ => .ynull

/-- A fixed checksum value standing in for `morpc.md5`. -/
def md5c : String → String := fun _ => "d41d8cd98f00b204e9800998ecf8427e"

/-- C1: the claim says every entry whose parent directory is the walk root
appears in the root `Dataset` entity's `hasPart`.  The code computes the
parent id `"./"` for such an entry but looks it up in `path_to_entity`,
which holds only the walked records and never the root entity, so nothing
is ever appended to the root's `hasPart`.  Evaluating the build on a root
containing the single file `a.csv`: the file's entity exists, yet the root
entity keeps `hasPart = []`. -/
theorem c1_root_haspart_not_populated :
    (create_and_write_ro_crate_metadata exFalse yamNone md5c "/w/proj" "T0"
        [] (.ffile "a.csv" .fnil)).map
        (fun r => r.1.graph.map (fun e => (e.id, e.hasPart))) =
      .ok [("./", some []), ("a.csv", none)] := rfl

/-- C2 counterexample: the claim says every `File` entity, including
descriptor (`.resource.yaml`) files themselves, carries a checksum.  On a
root containing only `a.resource.yaml`, the walk yields a `File` record
for it, but the checksum branch is guarded by
`not item["path"].endswith(".resource.yaml")`, so its entity has no
`contentChecksum`. -/
theorem c2_counterexample :
    (create_and_write_ro_crate_metadata exFalse yamNone md5c "/w/p" "T0"
        [] (.ffile "a.resource.yaml" .fnil)).map
        (fun r => r.1.graph.map (fun e => (e.id, e.etype, e.contentChecksum))) =
      .ok [("./", "Dataset", none), ("a.resource.yaml", "File", none)] := rfl

/-- C3 counterexample: the claim says a description is attached iff the
candidate descriptor path exists among the entries produced by the walk,
so a descriptor on disk but excluded from the walk yields no description.
With `omit_names = ["a.resource.yaml"]` the walk of a root holding
`a.csv` and `a.resource.yaml` produces only the `a.csv` record, yet the
code's `os.path.exists` check sees the descriptor on disk and attaches
its description. -/
theorem c3_counterexample :
    (create_and_write_ro_crate_metadata
          (fun p => p == "a.csv" || p == "a.resource.yaml")
          (fun _ => .ymap [("description", "Attribute table")]) md5c "/w/p"
          "T0" ["a.resource.yaml"]
          (.ffile "a.csv" (.ffile "a.resource.yaml" .fnil))).map
        (fun r => r.1.graph.map (fun e => (e.id, e.description))) =
        .ok [("./", none), ("a.csv", some "Attribute table")] ∧
      (list_directory_contents ["a.resource.yaml"]
            (.ffile "a.csv" (.ffile "a.resource.yaml" .fnil))).map
          Entry.pathStr =
        ["a.csv"] := by
  constructor
  · rfl
  · rfl

/-- C4 counterexample: the claim says the document is written to a
temporary location and then atomically moved into place.  The write trace
for any document starts by opening the destination itself for truncating
write and contains no rename at all. -/
theorem c4_counterexample :
    (writeMetadataOps { context := contextUri, graph := [] }).head? =
        some (.openTrunc manifestDest) ∧
      (writeMetadataOps { context := contextUri, graph := [] }).all
          (fun op => match op with | .rename _ _ => false | _ => true) =
        true := by
  constructor
  · rfl
  · rfl

/-- C7 counterexample: the claim says a malformed-but-parseable document
(for example an empty one) makes the description default to the empty
string.  On an existing descriptor whose `yaml.safe_load` result is
`None`, `resource_data.get('description', '')` raises `AttributeError`
instead of returning `''`. -/
theorem c7_counterexample :
    get_description_from_resource_file (fun _ => true) yamNone
        "a.resource.yaml" =
      .error .attributeError := rfl

/-- C8 counterexample: the claim says the builder fails with
`StructuralError` when two records claim the same id.  Feeding the builder
two records with the path `a` produces a successful manifest holding two
entities with the id `a`; no error of any kind is raised. -/
theorem c8_counterexample :
    (buildFromContents exFalse yamNone md5c "/w" "T0"
        [⟨.file, ["a"], []⟩, ⟨.file, ["a"], []⟩]).map
        (fun m => m.graph.map (fun e => e.id)) =
      .ok ["./", "a", "a"] := rfl

/-- C8 amended: on duplicate ids the builder silently overwrites the
earlier entity in `path_to_entity` and raises nothing: with two `a.csv`
records and a matching descriptor record, only the second `a.csv` entity
receives `isDescribedBy` (the dict points at the later one), while the
first stays unlinked in the graph. -/
theorem c8_silent_overwrite :
    (buildFromContents exFalse yamNone md5c "/w" "T0"
        [⟨.file, ["a.csv"], []⟩, ⟨.file, ["a.csv"], []⟩,
          ⟨.file, ["a.resource.yaml"], []⟩]).map
        (fun m => m.graph.map (fun e => (e.id, e.isDescribedBy))) =
      .ok [("./", none), ("a.csv", none), ("a.csv", some "a.resource.yaml"),
        ("a.resource.yaml", none)] := rfl

/-- C9 counterexample: the claim says an empty directory's entity still
holds a valid empty ordered sequence (an empty `hasPart`) in the finished
graph.  The code only creates the `hasPart` key of a non-root entity when
it appends a first child, so the entity of the empty directory `d` has no
`hasPart` key at all (`none`), not an empty list. -/
theorem c9_counterexample :
    (create_and_write_ro_crate_metadata exFalse yamNone md5c "/w/p" "T0" []
        (.fdir "d" .fnil .fnil)).map
        (fun r => r.1.graph.map (fun e => (e.id, e.etype, e.hasPart))) =
      .ok [("./", "Dataset", some []), ("d", "Directory", none)] := rfl

/-- The `hasPart` step of one second-pass iteration, seen from the entity
at position `j`. -/
def stepHP (p2e : List (String × Nat)) (j : Nat) (item : Entry)
    (e : Entity) : Entity :=
  if p2e.lookup (parentId item) = some j then addHasPart item.pathStr e else e

/-- The `isDescribedBy` step of one second-pass iteration, seen from the
entity at position `j`. -/
def stepDB (p2e : List (String × Nat)) (j : Nat) (item : Entry)
    (e : Entity) : Entity :=
  if item.type = .file ∧ endsWithS item.pathStr descriptorSuffix = false then
    if (p2e.lookup (stemStr item.pathStr ++ descriptorSuffix)).isSome then
      if p2e.lookup item.pathStr = some j then
        setDescribedBy (stemStr item.pathStr ++ descriptorSuffix) e
      else e
    else e
  else e

/-- One second-pass iteration, seen from the entity at position `j`. -/
def stepOn (p2e : List (String × Nat)) (j : Nat) (item : Entry)
    (e : Entity) : Entity :=
  stepDB p2e j item (stepHP p2e j item e)

/-- The whole second pass, seen from the entity at position `j`. -/
def pass2sim (p2e : List (String × Nat)) (j : Nat) (items : List Entry)
    (e : Entity) : Entity :=
  items.foldl (fun acc it => stepOn p2e j it acc) e

theorem listModify_get? (f : Entity → Entity) :
    ∀ (i : Nat) (l : List Entity) (j : Nat),
      (listModify f i l).get? j = if i = j then (l.get? j).map f else l.get? j
  | i, [], j => by
    cases i <;> simp [listModify]
  | 0, e :: es, 0 => by rfl
  | 0, e :: es, j + 1 => by
    simp [listModify]
  | n + 1, e :: es, 0 => by
    simp [listModify]
  | n + 1, e :: es, j + 1 => by
    have h := listModify_get? f n es j
    by_cases hnj : n = j
    · simp [listModify, hnj] at h ⊢
      exact h
    · have hnj' : ¬ (n + 1 = j + 1) := fun hc => hnj (Nat.succ_injective hc)
      simp [listModify, hnj, hnj'] at h ⊢
      exact h

theorem optionMapIdOf (o : Option Entity) (g : Entity → Entity)
    (h : ∀ e, g e = e) : Option.map g o = o := by
  cases o <;> simp [h]

theorem optionMapCongr {o : Option Entity} {g g' : Entity → Entity}
    (h : ∀ e, g e = g' e) : Option.map g o = Option.map g' o := by
  cases o <;> simp [h]

theorem matchModify_get? (f : Entity → Entity) (o : Option Nat)
    (es : List Entity) (j : Nat) :
    (matchModify f o es).get? j =
      if o = some j then (es.get? j).map f else es.get? j := by
  rcases o with _ | i
  · simp [matchModify]
  · rw [matchModify, listModify_get?]
    by_cases h : i = j <;> simp [h]

theorem pass2stepDB_get? (p2e : List (String × Nat)) (item : Entry)
    (es : List Entity) (j : Nat) :
    (pass2stepDB p2e item es).get? j = (es.get? j).map (stepDB p2e j item) := by
  unfold pass2stepDB
  by_cases hf : item.type = .file ∧ endsWithS item.pathStr descriptorSuffix = false
  · by_cases hs :
      (p2e.lookup (stemStr item.pathStr ++ descriptorSuffix)).isSome = true
    · rw [if_pos hf, if_pos hs, matchModify_get?]
      by_cases hq : p2e.lookup item.pathStr = some j
      · rw [if_pos hq]
        refine (optionMapCongr (fun e => ?_)).symm
        unfold stepDB
        rw [if_pos hf, if_pos hs, if_pos hq]
      · rw [if_neg hq]
        refine (optionMapIdOf _ _ (fun e => ?_)).symm
        unfold stepDB
        rw [if_pos hf, if_pos hs, if_neg hq]
    · rw [if_pos hf, if_neg hs]
      refine (optionMapIdOf _ _ (fun e => ?_)).symm
      unfold stepDB
      rw [if_pos hf, if_neg hs]
  · rw [if_neg hf]
    refine (optionMapIdOf _ _ (fun e => ?_)).symm
    unfold stepDB
    rw [if_neg hf]

theorem pass2step_get? (p2e : List (String × Nat)) (es : List Entity)
    (item : Entry) (j : Nat) :
    (pass2step p2e es item).get? j = (es.get? j).map (stepOn p2e j item) := by
  unfold pass2step stepOn
  rw [pass2stepDB_get?, matchModify_get?]
  by_cases hp : p2e.lookup (parentId item) = some j
  · rw [if_pos hp]
    cases es.get? j <;> simp [stepHP, hp]
  · rw [if_neg hp]
    cases es.get? j <;> simp [stepHP, hp]

theorem pass2_get? (p2e : List (String × Nat)) :
    ∀ (items : List Entry) (es : List Entity) (j : Nat),
      (pass2 p2e items es).get? j = (es.get? j).map (pass2sim p2e j items)
  | [], es, j => by
    unfold pass2
    rw [List.foldl_nil]
    exact (optionMapIdOf _ _ (fun e => rfl)).symm
  | it :: its, es, j => by
    have h := pass2_get? p2e its (pass2step p2e es it) j
    unfold pass2 at h ⊢
    rw [List.foldl_cons, h, pass2step_get?]
    cases es.get? j <;> simp [pass2sim]

/-- Fields of an entity the second pass never writes. -/
def coreEq (a b : Entity) : Prop :=
  a.id = b.id ∧ a.etype = b.etype ∧ a.name = b.name ∧
    a.dateCreated = b.dateCreated ∧ a.description = b.description ∧
    a.contentChecksum = b.contentChecksum

theorem coreEq_refl (a : Entity) : coreEq a a :=
  ⟨rfl, rfl, rfl, rfl, rfl, rfl⟩

theorem coreEq_trans {a b c : Entity} (h1 : coreEq a b) (h2 : coreEq b c) :
    coreEq a c :=
  ⟨h1.1.trans h2.1, h1.2.1.trans h2.2.1, h1.2.2.1.trans h2.2.2.1,
    h1.2.2.2.1.trans h2.2.2.2.1, h1.2.2.2.2.1.trans h2.2.2.2.2.1,
    h1.2.2.2.2.2.trans h2.2.2.2.2.2⟩

theorem stepHP_coreEq (p2e : List (String × Nat)) (j : Nat) (it : Entry)
    (e : Entity) : coreEq (stepHP p2e j it e) e := by
  unfold stepHP addHasPart coreEq
  split <;> exact ⟨rfl, rfl, rfl, rfl, rfl, rfl⟩

theorem stepHP_descr (p2e : List (String × Nat)) (j : Nat) (it : Entry)
    (e : Entity) : (stepHP p2e j it e).isDescribedBy = e.isDescribedBy := by
  unfold stepHP addHasPart
  split <;> rfl

theorem stepHP_hasPart (p2e : List (String × Nat)) (j : Nat) (it : Entry)
    (e : Entity) :
    (stepHP p2e j it e).hasPart =
      if p2e.lookup (parentId it) = some j then
        some (e.hasPart.getD [] ++ [it.pathStr])
      else e.hasPart := by
  unfold stepHP addHasPart
  split <;> rfl

theorem stepDB_coreEq (p2e : List (String × Nat)) (j : Nat) (it : Entry)
    (e : Entity) : coreEq (stepDB p2e j it e) e := by
  unfold stepDB setDescribedBy coreEq
  split_ifs <;> exact ⟨rfl, rfl, rfl, rfl, rfl, rfl⟩

theorem stepDB_hasPart (p2e : List (String × Nat)) (j : Nat) (it : Entry)
    (e : Entity) : (stepDB p2e j it e).hasPart = e.hasPart := by
  unfold stepDB setDescribedBy
  split_ifs <;> rfl

/-- The condition under which one second-pass iteration writes
`isDescribedBy` into the entity at position `j`. -/
def dbCondP (p2e : List (String × Nat)) (j : Nat) (it : Entry) : Prop :=
  (it.type = .file ∧ endsWithS it.pathStr descriptorSuffix = false) ∧
    ((p2e.lookup (stemStr it.pathStr ++ descriptorSuffix)).isSome = true ∧
      p2e.lookup it.pathStr = some j)

instance (p2e : List (String × Nat)) (j : Nat) (it : Entry) :
    Decidable (dbCondP p2e j it) := by
  unfold dbCondP
  infer_instance

theorem stepDB_descr (p2e : List (String × Nat)) (j : Nat) (it : Entry)
    (e : Entity) :
    (stepDB p2e j it e).isDescribedBy =
      if dbCondP p2e j it then some (stemStr it.pathStr ++ descriptorSuffix)
      else e.isDescribedBy := by
  unfold stepDB setDescribedBy
  by_cases h1 : it.type = .file ∧ endsWithS it.pathStr descriptorSuffix = false
  · rw [if_pos h1]
    by_cases h2 :
      (p2e.lookup (stemStr it.pathStr ++ descriptorSuffix)).isSome = true
    · rw [if_pos h2]
      by_cases h3 : p2e.lookup it.pathStr = some j
      · rw [if_pos h3, if_pos (show dbCondP p2e j it from ⟨h1, h2, h3⟩)]
      · rw [if_neg h3, if_neg (fun hc : dbCondP p2e j it => h3 hc.2.2)]
    · rw [if_neg h2, if_neg (fun hc : dbCondP p2e j it => h2 hc.2.1)]
  · rw [if_neg h1, if_neg (fun hc : dbCondP p2e j it => h1 hc.1)]

theorem stepOn_coreEq (p2e : List (String × Nat)) (j : Nat) (it : Entry)
    (e : Entity) : coreEq (stepOn p2e j it e) e :=
  coreEq_trans (stepDB_coreEq p2e j it (stepHP p2e j it e))
    (stepHP_coreEq p2e j it e)

theorem stepOn_hasPart (p2e : List (String × Nat)) (j : Nat) (it : Entry)
    (e : Entity) :
    (stepOn p2e j it e).hasPart =
      if p2e.lookup (parentId it) = some j then
        some (e.hasPart.getD [] ++ [it.pathStr])
      else e.hasPart := by
  unfold stepOn
  rw [stepDB_hasPart, stepHP_hasPart]

theorem stepOn_descr (p2e : List (String × Nat)) (j : Nat) (it : Entry)
    (e : Entity) :
    (stepOn p2e j it e).isDescribedBy =
      if dbCondP p2e j it then some (stemStr it.pathStr ++ descriptorSuffix)
      else e.isDescribedBy := by
  unfold stepOn
  rw [stepDB_descr, stepHP_descr]

theorem pass2sim_coreEq (p2e : List (String × Nat)) (j : Nat) :
    ∀ (items : List Entry) (e : Entity), coreEq (pass2sim p2e j items e) e
  | [], e => coreEq_refl e
  | it :: its, e =>
    coreEq_trans (pass2sim_coreEq p2e j its (stepOn p2e j it e))
      (stepOn_coreEq p2e j it e)

/-- The evolution of one entity's `hasPart` over the second pass. -/
def hpFold (p2e : List (String × Nat)) (j : Nat) (items : List Entry)
    (h0 : Option (List String)) : Option (List String) :=
  items.foldl
    (fun acc it =>
      if p2e.lookup (parentId it) = some j then some (acc.getD [] ++ [it.pathStr])
      else acc)
    h0

theorem pass2sim_hasPart (p2e : List (String × Nat)) (j : Nat) :
    ∀ (items : List Entry) (e : Entity),
      (pass2sim p2e j items e).hasPart = hpFold p2e j items e.hasPart
  | [], e => rfl
  | it :: its, e => by
    show (pass2sim p2e j its (stepOn p2e j it e)).hasPart = _
    rw [pass2sim_hasPart p2e j its, stepOn_hasPart]
    rfl

/-- The records one second-pass iteration appends to the `hasPart` of the
entity at position `j`: those whose parent id resolves to `j`. -/
def hpKids (p2e : List (String × Nat)) (j : Nat) (items : List Entry) :
    List Entry :=
  items.filter (fun it => decide (p2e.lookup (parentId it) = some j))

theorem hpFold_char (p2e : List (String × Nat)) (j : Nat) :
    ∀ (items : List Entry) (h0 : Option (List String)),
      hpFold p2e j items h0 =
        if (hpKids p2e j items).isEmpty then h0
        else some (h0.getD [] ++ (hpKids p2e j items).map Entry.pathStr)
  | [], h0 => by simp [hpFold, hpKids]
  | it :: its, h0 => by
    by_cases hc : p2e.lookup (parentId it) = some j
    · rw [show hpFold p2e j (it :: its) h0 =
          hpFold p2e j its
            (if p2e.lookup (parentId it) = some j then
              some (h0.getD [] ++ [it.pathStr])
            else h0) from rfl,
        if_pos hc, hpFold_char p2e j its]
      have hk : hpKids p2e j (it :: its) = it :: hpKids p2e j its := by
        simp [hpKids, List.filter_cons, hc]
      rw [hk]
      by_cases he : (hpKids p2e j its).isEmpty = true
      · have : hpKids p2e j its = [] := List.isEmpty_iff.mp he
        rw [if_pos he]
        simp [this]
      · rw [if_neg he, if_neg (by simp [List.isEmpty_cons])]
        simp [List.append_assoc]
    · rw [show hpFold p2e j (it :: its) h0 =
          hpFold p2e j its
            (if p2e.lookup (parentId it) = some j then
              some (h0.getD [] ++ [it.pathStr])
            else h0) from rfl,
        if_neg hc, hpFold_char p2e j its]
      have hk : hpKids p2e j (it :: its) = hpKids p2e j its := by
        simp [hpKids, List.filter_cons, hc]
      rw [hk]

theorem pass2sim_descr (p2e : List (String × Nat)) (j : Nat) (v : String) :
    ∀ (items : List Entry) (e : Entity),
      (∀ it ∈ items, dbCondP p2e j it →
        stemStr it.pathStr ++ descriptorSuffix = v) →
      (pass2sim p2e j items e).isDescribedBy =
        if items.any (fun it => decide (dbCondP p2e j it)) then some v
        else e.isDescribedBy
  | [], e, _ => by simp [pass2sim]
  | it :: its, e, hall => by
    have ih := pass2sim_descr p2e j v its (stepOn p2e j it e)
      (fun x hx hc => hall x (List.mem_cons_of_mem _ hx) hc)
    show (pass2sim p2e j its (stepOn p2e j it e)).isDescribedBy = _
    rw [ih, stepOn_descr]
    by_cases hc : dbCondP p2e j it
    · have hv := hall it (List.mem_cons_self _ _) hc
      rw [if_pos hc]
      have hany : (it :: its).any (fun x => decide (dbCondP p2e j x)) = true := by
        simp [List.any_cons, hc]
      rw [if_pos hany]
      by_cases ha : its.any (fun x => decide (dbCondP p2e j x)) = true
      · rw [if_pos ha]
      · rw [if_neg ha, hv]
    · rw [if_neg hc]
      have hany : (it :: its).any (fun x => decide (dbCondP p2e j x)) =
          its.any (fun x => decide (dbCondP p2e j x)) := by
        simp [List.any_cons, hc]
      rw [hany]

theorem mkEntity_ok_char (ex : String → Bool) (yam : String → Yaml)
    (md5 : String → String) (dirStr : String) (it : Entry) (e : Entity)
    (h : mkEntity ex yam md5 dirStr it = .ok e) :
    e.id = it.pathStr ∧ e.etype = etypeName it.type ∧
      e.name = basenameStr it.pathStr ∧ e.dateCreated = none ∧
      e.hasPart = none ∧ e.isDescribedBy = none ∧
      e.contentChecksum =
        (if it.type = .file ∧ endsWithS it.pathStr descriptorSuffix = false
         then some ("MD5", md5 (dirStr ++ "/" ++ it.pathStr)) else none) ∧
      e.description.isSome =
        (if it.type = .file ∧ endsWithS it.pathStr descriptorSuffix = false
         then ex (stemStr it.pathStr ++ descriptorSuffix) else false) := by
  unfold mkEntity at h
  by_cases hf : it.type = .file ∧ endsWithS it.pathStr descriptorSuffix = false
  · rw [if_pos hf] at h
    by_cases hx : ex (stemStr it.pathStr ++ descriptorSuffix) = true
    · rw [if_pos hx] at h
      cases hd : get_description_from_resource_file ex yam
          (stemStr it.pathStr ++ descriptorSuffix) with
      | error err =>
        rw [hd] at h
        simp [Bind.bind, Except.bind] at h
      | ok d =>
        rw [hd] at h
        simp only [Bind.bind, Except.bind, pure, Except.pure, Except.ok.injEq] at h
        subst h
        rw [if_pos hf, if_pos hf, hx]
        exact ⟨rfl, rfl, rfl, rfl, rfl, rfl, rfl, rfl⟩
    · rw [if_neg hx] at h
      simp only [Bind.bind, Except.bind, pure, Except.pure, Except.ok.injEq] at h
      subst h
      rw [if_pos hf, if_pos hf]
      refine ⟨rfl, rfl, rfl, rfl, rfl, rfl, rfl, ?_⟩
      cases hxv : ex (stemStr it.pathStr ++ descriptorSuffix)
      · rfl
      · exact absurd hxv hx
  · rw [if_neg hf] at h
    simp only [pure, Except.pure, Except.ok.injEq] at h
    subst h
    rw [if_neg hf, if_neg hf]
    exact ⟨rfl, rfl, rfl, rfl, rfl, rfl, rfl, rfl⟩

theorem pass1_get? (ex : String → Bool) (yam : String → Yaml)
    (md5 : String → String) (dirStr : String) :
    ∀ (l : List Entry) (es : List Entity),
      pass1 ex yam md5 dirStr l = .ok es →
      ∀ (j : Nat) (it : Entry), l.get? j = some it →
        ∃ e, es.get? j = some e ∧ mkEntity ex yam md5 dirStr it = .ok e
  | [], es, _, j, it, hj => by simp at hj
  | itm :: rest, es, h, j, it, hj => by
    cases hm : mkEntity ex yam md5 dirStr itm with
    | error err =>
      unfold pass1 at h
      rw [hm] at h
      simp [Bind.bind, Except.bind] at h
    | ok e0 =>
      cases hr : pass1 ex yam md5 dirStr rest with
      | error err =>
        unfold pass1 at h
        rw [hm, hr] at h
        simp [Bind.bind, Except.bind] at h
      | ok es0 =>
        unfold pass1 at h
        rw [hm, hr] at h
        simp only [Bind.bind, Except.bind, pure, Except.pure,
          Except.ok.injEq] at h
        subst h
        cases j with
        | zero =>
          simp only [List.get?] at hj
          cases hj
          exact ⟨e0, rfl, hm⟩
        | succ n =>
          simp only [List.get?] at hj
          exact pass1_get? ex yam md5 dirStr rest es0 hr n it hj

theorem buildFromContents_ok (ex : String → Bool) (yam : String → Yaml)
    (md5 : String → String) (dirStr now : String) (contents : List Entry)
    (m : Metadata)
    (h : buildFromContents ex yam md5 dirStr now contents = .ok m) :
    ∃ es, pass1 ex yam md5 dirStr contents = .ok es ∧
      m.graph =
        rootEntity dirStr now :: pass2 (buildP2E 0 contents) contents es := by
  unfold buildFromContents at h
  cases hp : pass1 ex yam md5 dirStr contents with
  | error err =>
    rw [hp] at h
    simp at h
  | ok es =>
    rw [hp] at h
    simp only [Except.ok.injEq] at h
    exact ⟨es, rfl, by rw [← h]⟩

theorem create_ok (ex : String → Bool) (yam : String → Yaml)
    (md5 : String → String) (dirStr now : String) (omit_names : List String)
    (tree : FsForest) (m : Metadata) (ops : List FsOp)
    (h : create_and_write_ro_crate_metadata ex yam md5 dirStr now omit_names
        tree = .ok (m, ops)) :
    buildFromContents ex yam md5 dirStr now
        (list_directory_contents omit_names tree) = .ok m ∧
      ops = writeMetadataOps m := by
  unfold create_and_write_ro_crate_metadata at h
  cases hb : buildFromContents ex yam md5 dirStr now
      (list_directory_contents omit_names tree) with
  | error err =>
    rw [hb] at h
    simp [Bind.bind, Except.bind] at h
  | ok m0 =>
    rw [hb] at h
    simp only [Bind.bind, Except.bind, pure, Except.pure, Except.ok.injEq,
      Prod.mk.injEq] at h
    obtain ⟨h1, h2⟩ := h
    subst h1
    exact ⟨rfl, h2.symm⟩

theorem pass1_length (ex : String → Bool) (yam : String → Yaml)
    (md5 : String → String) (dirStr : String) :
    ∀ (l : List Entry) (es : List Entity),
      pass1 ex yam md5 dirStr l = .ok es → es.length = l.length
  | [], es, h => by
    unfold pass1 at h
    simp only [Except.ok.injEq] at h
    subst h
    rfl
  | itm :: rest, es, h => by
    cases hm : mkEntity ex yam md5 dirStr itm with
    | error err =>
      unfold pass1 at h
      rw [hm] at h
      simp [Bind.bind, Except.bind] at h
    | ok e0 =>
      cases hr : pass1 ex yam md5 dirStr rest with
      | error err =>
        unfold pass1 at h
        rw [hm, hr] at h
        simp [Bind.bind, Except.bind] at h
      | ok es0 =>
        unfold pass1 at h
        rw [hm, hr] at h
        simp only [Bind.bind, Except.bind, pure, Except.pure,
          Except.ok.injEq] at h
        subst h
        simp [pass1_length ex yam md5 dirStr rest es0 hr]

/-- Every entity of a successfully built graph is either the root entity or
the second-pass image of a first-pass entity of some walk record. -/
theorem create_ok_graph_mem (ex : String → Bool) (yam : String → Yaml)
    (md5 : String → String) (dirStr now : String) (omit_names : List String)
    (tree : FsForest) (m : Metadata) (ops : List FsOp)
    (h : create_and_write_ro_crate_metadata ex yam md5 dirStr now omit_names
        tree = .ok (m, ops))
    (e : Entity) (he : e ∈ m.graph) :
    e = rootEntity dirStr now ∨
      ∃ j it e0, (list_directory_contents omit_names tree).get? j = some it ∧
        mkEntity ex yam md5 dirStr it = .ok e0 ∧
        e = pass2sim (buildP2E 0 (list_directory_contents omit_names tree)) j
          (list_directory_contents omit_names tree) e0 := by
  obtain ⟨hb, -⟩ := create_ok ex yam md5 dirStr now omit_names tree m ops h
  obtain ⟨es, hp, hg⟩ := buildFromContents_ok ex yam md5 dirStr now
    (list_directory_contents omit_names tree) m hb
  rw [hg] at he
  rcases List.mem_cons.mp he with h0 | h1
  · exact Or.inl h0
  · right
    obtain ⟨j, hj⟩ := List.mem_iff_get?.mp h1
    rw [pass2_get?] at hj
    cases hej : es.get? j with
    | none =>
      rw [hej] at hj
      simp at hj
    | some e0 =>
      rw [hej, Option.map_some'] at hj
      cases hit : (list_directory_contents omit_names tree).get? j with
      | none =>
        have hlen := List.get?_eq_none.mp hit
        have hlt := (List.get?_eq_some.mp hej).1
        rw [pass1_length ex yam md5 dirStr _ es hp] at hlt
        omega
      | some it =>
        obtain ⟨e0', he0', hm0⟩ :=
          pass1_get? ex yam md5 dirStr _ es hp j it hit
        rw [hej] at he0'
        cases he0'
        exact ⟨j, it, e0, hit, hm0, (Option.some.injEq _ _ ▸ hj).symm⟩

/-- C2 amended: in every built manifest, `contentChecksum` is present on an
entity iff it is a `File` entity whose id does not end in the descriptor
suffix: descriptor (`.resource.yaml`) files and `Directory` entities (and
the root `Dataset`) never carry one. -/
theorem c2_checksum_iff (ex : String → Bool) (yam : String → Yaml)
    (md5 : String → String) (dirStr now : String) (omit_names : List String)
    (tree : FsForest) (m : Metadata) (ops : List FsOp)
    (h : create_and_write_ro_crate_metadata ex yam md5 dirStr now omit_names
        tree = .ok (m, ops)) :
    ∀ e ∈ m.graph,
      e.contentChecksum.isSome =
        (decide (e.etype = "File") && !(endsWithS e.id descriptorSuffix)) := by
  intro e he
  rcases create_ok_graph_mem ex yam md5 dirStr now omit_names tree m ops h e
      he with h0 | ⟨j, it, e0, _, hm, hsim⟩
  · subst h0
    rfl
  · subst hsim
    obtain ⟨hid, hty, _, _, _, _, hcc, _⟩ :=
      mkEntity_ok_char ex yam md5 dirStr it e0 hm
    have hcore := pass2sim_coreEq
      (buildP2E 0 (list_directory_contents omit_names tree)) j
      (list_directory_contents omit_names tree) e0
    rw [hcore.2.2.2.2.2, hcore.1, hcore.2.1, hid, hty, hcc]
    by_cases hfc : it.type = .file ∧ endsWithS it.pathStr descriptorSuffix = false
    · rw [if_pos hfc, hfc.1, hfc.2]
      rfl
    · rw [if_neg hfc]
      cases hty2 : it.type with
      | file =>
        have hev : endsWithS it.pathStr descriptorSuffix = true := by
          cases hev : endsWithS it.pathStr descriptorSuffix
          · exact absurd ⟨hty2, hev⟩ hfc
          · rfl
        rw [hev]
        rfl
      | directory => rfl

/-- The descriptor-file entity the walk of a root holding only
`a.resource.yaml` produces. -/
def entYaml : Entity :=
  { id := "a.resource.yaml", etype := "File", name := "a.resource.yaml" }

theorem c2_checksum_iff_witness :
    entYaml.contentChecksum.isSome =
      (decide (entYaml.etype = "File") &&
        !(endsWithS entYaml.id descriptorSuffix)) :=
  c2_checksum_iff exFalse yamNone md5c "/w/p" "T0" []
    (.ffile "a.resource.yaml" .fnil) _ _ rfl entYaml (by decide)

/-- C3 amended: for every `File` entity whose path does not end in the
descriptor suffix, the description is attached iff `os.path.exists` is
true of the candidate descriptor path — a check of the disk through the
process working directory, independent of which entries the walk
produced. -/
theorem c3_description_iff_disk (ex : String → Bool) (yam : String → Yaml)
    (md5 : String → String) (dirStr now : String) (omit_names : List String)
    (tree : FsForest) (m : Metadata) (ops : List FsOp)
    (h : create_and_write_ro_crate_metadata ex yam md5 dirStr now omit_names
        tree = .ok (m, ops)) :
    ∀ e ∈ m.graph, e.etype = "File" →
      endsWithS e.id descriptorSuffix = false →
      e.description.isSome = ex (stemStr e.id ++ descriptorSuffix) := by
  intro e he hty hsuf
  rcases create_ok_graph_mem ex yam md5 dirStr now omit_names tree m ops h e
      he with h0 | ⟨j, it, e0, _, hm, hsim⟩
  · rw [h0] at hty
    have hcon : ("Dataset" : String) = "File" := hty
    exact absurd hcon (by decide)
  · subst hsim
    obtain ⟨hid, htyn, _, _, _, _, _, hds⟩ :=
      mkEntity_ok_char ex yam md5 dirStr it e0 hm
    have hcore := pass2sim_coreEq
      (buildP2E 0 (list_directory_contents omit_names tree)) j
      (list_directory_contents omit_names tree) e0
    rw [hcore.1, hid] at hsuf
    rw [hcore.2.1, htyn] at hty
    have htf : it.type = .file := by
      cases hty2 : it.type
      · rfl
      · rw [hty2] at hty
        exact absurd hty (by decide)
    rw [hcore.2.2.2.2.1, hcore.1, hid, hds, if_pos ⟨htf, hsuf⟩]

/-- The `a.csv` entity of the C3 scenario: the descriptor is excluded from
the walk but present on disk, so a description is attached. -/
def entAcsv : Entity :=
  { id := "a.csv", etype := "File", name := "a.csv",
    description := some "Attribute table",
    contentChecksum := some ("MD5", md5c "/w/p/a.csv") }

theorem c3_description_iff_disk_witness :
    entAcsv.description.isSome =
      (fun p => p == "a.csv" || p == "a.resource.yaml")
        (stemStr entAcsv.id ++ descriptorSuffix) :=
  c3_description_iff_disk
    (fun p => p == "a.csv" || p == "a.resource.yaml")
    (fun _ => .ymap [("description", "Attribute table")]) md5c "/w/p" "T0"
    ["a.resource.yaml"] (.ffile "a.csv" (.ffile "a.resource.yaml" .fnil)) _ _
    rfl entAcsv (by decide) rfl rfl

/-- C4 amended: the writer is a direct truncating write of the destination
itself — the trace is exactly open-for-write, dump, close, and contains no
rename of a temporary file into place, so an interruption mid-write can
leave a partial destination file. -/
theorem c4_direct_write (ex : String → Bool) (yam : String → Yaml)
    (md5 : String → String) (dirStr now : String) (omit_names : List String)
    (tree : FsForest) (m : Metadata) (ops : List FsOp)
    (h : create_and_write_ro_crate_metadata ex yam md5 dirStr now omit_names
        tree = .ok (m, ops)) :
    ops = [.openTrunc manifestDest, .writeDoc manifestDest m,
        .closeFile manifestDest] ∧
      ∀ s d, FsOp.rename s d ∉ ops := by
  obtain ⟨-, hops⟩ := create_ok ex yam md5 dirStr now omit_names tree m ops h
  subst hops
  refine ⟨rfl, fun s d hmem => ?_⟩
  simp [writeMetadataOps] at hmem

/-- The manifest an empty walk root produces. -/
def mdRoot : Metadata := { context := contextUri, graph := [rootEntity "/w" "T0"] }

theorem c4_direct_write_witness :
    writeMetadataOps mdRoot =
        [.openTrunc manifestDest, .writeDoc manifestDest mdRoot,
          .closeFile manifestDest] ∧
      ∀ s d, FsOp.rename s d ∉ writeMetadataOps mdRoot :=
  c4_direct_write exFalse yamNone md5c "/w" "T0" [] .fnil _ _ rfl

/-- C7 amended: when the descriptor file exists, the description defaults
to the empty string only when the parsed document is a key-value mapping
lacking a `description` field; invalid structured-document syntax raises
the parse error (`yaml.YAMLError`), which propagates and aborts the whole
build, while an empty or non-mapping parseable document raises
`AttributeError` rather than defaulting to the empty string. -/
theorem c7_descriptor_errors :
    (∀ (ex : String → Bool) (yam : String → Yaml) (rf : String),
      ex rf = true →
      get_description_from_resource_file ex yam rf =
        match yam rf with
        | .invalid => .error .yamlError
        | .ymap kvs => .ok ((kvs.lookup "description").getD "")
        | _ => .error .attributeError) ∧
      create_and_write_ro_crate_metadata (fun _ => true) (fun _ => .invalid)
        md5c "/w" "T0" [] (.ffile "a.csv" .fnil) = .error .yamlError := by
  constructor
  · intro ex yam rf hex
    unfold get_description_from_resource_file
    rw [if_pos hex]
  · rfl

theorem c7_descriptor_errors_witness :
    get_description_from_resource_file (fun _ => true) (fun _ => .ymap [])
        "r.resource.yaml" =
      .ok "" :=
  (c7_descriptor_errors.1 (fun _ => true) (fun _ => .ymap [])
    "r.resource.yaml" rfl).trans rfl

/-- C9 amended: an empty directory produces only its own `Directory`
entity, which receives no `hasPart` additions from children; but the
builder never writes an explicit empty list — a non-root entity's
`hasPart` is either absent or nonempty, so the empty directory's entity
has no `hasPart` key at all. -/
theorem c9_empty_dir_haspart :
    (∀ (ex : String → Bool) (yam : String → Yaml) (md5 : String → String)
        (dirStr now : String) (omit_names : List String) (tree : FsForest)
        (m : Metadata) (ops : List FsOp),
      create_and_write_ro_crate_metadata ex yam md5 dirStr now omit_names
          tree = .ok (m, ops) →
      ∀ e ∈ m.graph.tail, e.hasPart ≠ some []) ∧
      (create_and_write_ro_crate_metadata exFalse yamNone md5c "/w/p" "T0" []
          (.ffile "f.txt" (.fdir "d" .fnil .fnil))).map
          (fun r => r.1.graph.map (fun e => (e.id, e.hasPart))) =
        .ok [("./", some []), ("f.txt", none), ("d", none)] := by
  constructor
  · intro ex yam md5 dirStr now omit_names tree m ops h e he
    obtain ⟨hb, -⟩ := create_ok ex yam md5 dirStr now omit_names tree m ops h
    obtain ⟨es, hp, hg⟩ := buildFromContents_ok ex yam md5 dirStr now
      (list_directory_contents omit_names tree) m hb
    rw [hg] at he
    simp only [List.tail_cons] at he
    obtain ⟨j, hj⟩ := List.mem_iff_get?.mp he
    rw [pass2_get?] at hj
    cases hej : es.get? j with
    | none =>
      rw [hej] at hj
      simp at hj
    | some e0 =>
      rw [hej, Option.map_some', Option.some.injEq] at hj
      cases hit : (list_directory_contents omit_names tree).get? j with
      | none =>
        have hlen := List.get?_eq_none.mp hit
        have hlt := (List.get?_eq_some.mp hej).1
        rw [pass1_length ex yam md5 dirStr _ es hp] at hlt
        omega
      | some it =>
        obtain ⟨e0', he0', hm0⟩ :=
          pass1_get? ex yam md5 dirStr _ es hp j it hit
        rw [hej] at he0'
        cases he0'
        obtain ⟨_, _, _, _, hhp, _, _, _⟩ :=
          mkEntity_ok_char ex yam md5 dirStr it e0 hm0
        subst hj
        rw [pass2sim_hasPart, hhp, hpFold_char]
        by_cases hke :
          (hpKids (buildP2E 0 (list_directory_contents omit_names tree)) j
            (list_directory_contents omit_names tree)).isEmpty = true
        · rw [if_pos hke]
          exact fun hc => Option.noConfusion hc
        · rw [if_neg hke]
          intro hc
          rw [Option.some.injEq] at hc
          have hmnil : (hpKids (buildP2E 0 (list_directory_contents omit_names
              tree)) j (list_directory_contents omit_names tree)).map
              Entry.pathStr = [] := by
            simpa using hc
          exact (List.isEmpty_iff.not.mp hke) (List.map_eq_nil_iff.mp hmnil)
  · rfl

/-- The empty directory entity of the C9 scenario. -/
def entDdir : Entity := { id := "d", etype := "Directory", name := "d" }

theorem c9_empty_dir_haspart_witness : entDdir.hasPart ≠ some [] :=
  c9_empty_dir_haspart.1 exFalse yamNone md5c "/w/p" "T0" []
    (.ffile "f.txt" (.fdir "d" .fnil .fnil)) _ _ rfl entDdir (by decide)

theorem boolFalseOfNotTrue {b : Bool} (h : ¬ b = true) : b = false := by
  cases b
  · rfl
  · exact absurd rfl h

/-- Every record of a walk sits strictly below the walk root, along a chain
of components none of which is omitted: omitted names produce no record and
omitted directories are not descended into. -/
theorem walk_no_omitted (omit_names : List String) :
    ∀ (cs : FsForest) (rp : List String) (e : Entry),
      e ∈ walkChildren omit_names rp cs →
      ∃ comps, e.path = rp ++ comps ∧ comps ≠ [] ∧
        ∀ c ∈ comps, should_omit omit_names c = false
  | .fnil, rp, e, he => by
    simp [walkChildren, fileEntriesOf, dirEntriesOf, walkSubs] at he
  | .ffile n ts, rp, e, he => by
    unfold walkChildren at he
    simp only [fileEntriesOf, dirEntriesOf, walkSubs, List.mem_append,
      List.append_assoc, or_assoc] at he
    rcases he with hA | h1 | h2 | h3
    · by_cases ho : should_omit omit_names n = true
      · rw [if_pos ho] at hA
        simp at hA
      · rw [if_neg ho] at hA
        simp only [List.mem_singleton] at hA
        subst hA
        exact ⟨[n], rfl, by simp,
          fun c hc => by
            simp only [List.mem_singleton] at hc
            subst hc
            exact boolFalseOfNotTrue ho⟩
    · exact walk_no_omitted omit_names ts rp e
        (by unfold walkChildren; simp [List.mem_append, h1])
    · exact walk_no_omitted omit_names ts rp e
        (by unfold walkChildren; simp [List.mem_append, h2])
    · exact walk_no_omitted omit_names ts rp e
        (by unfold walkChildren; simp [List.mem_append, h3])
  | .fdir n cs ts, rp, e, he => by
    unfold walkChildren at he
    simp only [fileEntriesOf, dirEntriesOf, walkSubs, List.mem_append,
      List.append_assoc, or_assoc] at he
    rcases he with h1 | hD | h2 | hW | h3
    · exact walk_no_omitted omit_names ts rp e
        (by unfold walkChildren; simp [List.mem_append, h1])
    · by_cases ho : should_omit omit_names n = true
      · rw [if_pos ho] at hD
        simp at hD
      · rw [if_neg ho] at hD
        simp only [List.mem_singleton] at hD
        subst hD
        exact ⟨[n], rfl, by simp,
          fun c hc => by
            simp only [List.mem_singleton] at hc
            subst hc
            exact boolFalseOfNotTrue ho⟩
    · exact walk_no_omitted omit_names ts rp e
        (by unfold walkChildren; simp [List.mem_append, h2])
    · by_cases ho : should_omit omit_names n = true
      · rw [if_pos ho] at hW
        simp at hW
      · rw [if_neg ho] at hW
        obtain ⟨comps, hpath, hne, hall⟩ :=
          walk_no_omitted omit_names cs (rp ++ [n]) e
            (by unfold walkChildren; rw [List.append_assoc]; exact hW)
        refine ⟨n :: comps, ?_, by simp, ?_⟩
        · rw [hpath, List.append_assoc]
          rfl
        · intro c hc
          rcases List.mem_cons.mp hc with hc0 | hc1
          · subst hc0
            exact boolFalseOfNotTrue ho
          · exact hall c hc1
    · exact walk_no_omitted omit_names ts rp e
        (by unfold walkChildren; simp [List.mem_append, h3])

/-- C6: a file or directory whose basename is omitted (exact `omit_names`
match or reserved suffix) produces no record, and an omitted directory is
not descended into, so no path component of any record is ever omitted;
with `omit_names = ["tmp"]` the directory `tmp/` and all of its contents
produce zero records while the sibling `tmp2/` is fully included. -/
theorem c6_exclusion :
    (∀ (omit_names : List String) (tree : FsForest) (e : Entry),
      e ∈ list_directory_contents omit_names tree →
      e.path ≠ [] ∧ ∀ c ∈ e.path, should_omit omit_names c = false) ∧
      list_directory_contents ["tmp"]
          (.fdir "tmp" (.ffile "x" (.fdir "y" (.ffile "z" .fnil) .fnil))
            (.fdir "tmp2" (.ffile "x" (.fdir "y" (.ffile "z" .fnil) .fnil))
              .fnil)) =
        [⟨.directory, ["tmp2"], []⟩, ⟨.file, ["tmp2", "x"], ["tmp2"]⟩,
          ⟨.directory, ["tmp2", "y"], ["tmp2"]⟩,
          ⟨.file, ["tmp2", "y", "z"], ["tmp2", "y"]⟩] := by
  constructor
  · intro omit_names tree e he
    obtain ⟨comps, hpath, hne, hall⟩ :=
      walk_no_omitted omit_names tree [] e he
    simp only [List.nil_append] at hpath
    rw [hpath]
    exact ⟨hne, hall⟩
  · decide

theorem c6_exclusion_witness :
    (⟨.file, ["tmp2", "x"], ["tmp2"]⟩ : Entry).path ≠ [] ∧
      ∀ c ∈ (⟨.file, ["tmp2", "x"], ["tmp2"]⟩ : Entry).path,
        should_omit ["tmp"] c = false :=
  c6_exclusion.1 ["tmp"]
    (.fdir "tmp" (.ffile "x" (.fdir "y" (.ffile "z" .fnil) .fnil))
      (.fdir "tmp2" (.ffile "x" (.fdir "y" (.ffile "z" .fnil) .fnil)) .fnil))
    ⟨.file, ["tmp2", "x"], ["tmp2"]⟩ (by decide)

/-- First-hit choice between two lookup results (the head of an
association list shadows the tail). -/
def optOr (a b : Option Nat) : Option Nat :=
  match a with
  | some v => some v
  | none => b

theorem lookup_append (s : String) :
    ∀ (l1 l2 : List (String × Nat)),
      (l1 ++ l2).lookup s = optOr (l1.lookup s) (l2.lookup s)
  | [], l2 => rfl
  | (k, v) :: l1, l2 => by
    cases hkv : s == k
    · simp only [List.cons_append, List.lookup, hkv]
      exact lookup_append s l1 l2
    · simp only [List.cons_append, List.lookup, hkv]
      rfl

theorem buildP2E_lookup_none (s : String) :
    ∀ (i : Nat) (l : List Entry), (∀ it ∈ l, it.pathStr ≠ s) →
      (buildP2E i l).lookup s = none
  | _, [], _ => rfl
  | i, it :: rest, hne => by
    unfold buildP2E
    rw [lookup_append,
      buildP2E_lookup_none s (i + 1) rest
        (fun x hx => hne x (List.mem_cons_of_mem _ hx))]
    have hb : (s == it.pathStr) = false := by
      cases hbv : s == it.pathStr
      · rfl
      · exact absurd (eq_of_beq hbv).symm (hne it (List.mem_cons_self _ _))
    simp [optOr, List.lookup, hb]

theorem buildP2E_lookup_some (s : String) :
    ∀ (i : Nat) (l : List Entry) (j : Nat),
      (buildP2E i l).lookup s = some j →
      ∃ k it, l.get? k = some it ∧ it.pathStr = s ∧ j = i + k
  | _, [], j, h => by simp [buildP2E, List.lookup] at h
  | i, it :: rest, j, h => by
    unfold buildP2E at h
    rw [lookup_append] at h
    cases hr : (buildP2E (i + 1) rest).lookup s with
    | some j2 =>
      rw [hr] at h
      simp only [optOr, Option.some.injEq] at h
      subst h
      obtain ⟨k, it2, hk, hps, hj⟩ :=
        buildP2E_lookup_some s (i + 1) rest j2 hr
      refine ⟨k + 1, it2, by simpa using hk, hps, by omega⟩
    | none =>
      rw [hr] at h
      simp only [optOr] at h
      cases hb : s == it.pathStr
      · simp [List.lookup, hb] at h
      · simp only [List.lookup, hb, Option.some.injEq] at h
        refine ⟨0, it, rfl, (eq_of_beq hb).symm, ?_⟩
        omega

theorem buildP2E_lookup_nodup :
    ∀ (i : Nat) (l : List Entry) (k : Nat) (it : Entry),
      (l.map Entry.pathStr).Nodup → l.get? k = some it →
      (buildP2E i l).lookup it.pathStr = some (i + k)
  | _, [], k, it, _, hk => by simp at hk
  | i, it0 :: rest, 0, it, hnd, hk => by
    simp only [List.get?] at hk
    cases hk
    unfold buildP2E
    rw [lookup_append]
    have hnone : (buildP2E (i + 1) rest).lookup it0.pathStr = none := by
      apply buildP2E_lookup_none
      intro x hx heq
      have hmem : it0.pathStr ∈ rest.map Entry.pathStr :=
        heq ▸ List.mem_map_of_mem Entry.pathStr hx
      rw [List.map_cons] at hnd
      exact (List.nodup_cons.mp hnd).1 hmem
    rw [hnone]
    simp [optOr, List.lookup]
  | i, it0 :: rest, k + 1, it, hnd, hk => by
    simp only [List.get?] at hk
    unfold buildP2E
    rw [List.map_cons] at hnd
    rw [lookup_append,
      buildP2E_lookup_nodup (i + 1) rest k it (List.nodup_cons.mp hnd).2 hk]
    simp only [optOr, Option.some.injEq]
    omega

theorem buildP2E_mem_iff (s : String) :
    ∀ (i : Nat) (l : List Entry),
      ((buildP2E i l).lookup s).isSome = true ↔ s ∈ l.map Entry.pathStr
  | _, [] => by simp [buildP2E, List.lookup]
  | i, it :: rest => by
    unfold buildP2E
    rw [lookup_append]
    cases hr : (buildP2E (i + 1) rest).lookup s with
    | some j =>
      have hmem := (buildP2E_mem_iff s (i + 1) rest).mp (by simp [hr])
      simp only [optOr, Option.isSome_some, List.map_cons, List.mem_cons]
      exact ⟨fun _ => Or.inr hmem, fun _ => trivial⟩
    | none =>
      have hrest := buildP2E_mem_iff s (i + 1) rest
      rw [hr] at hrest
      simp only [Option.isSome_none, Bool.false_eq_true, false_iff] at hrest
      simp only [optOr, List.map_cons, List.mem_cons]
      cases hb : s == it.pathStr
      · simp only [List.lookup, hb, Option.isSome_none, Bool.false_eq_true,
          false_iff]
        intro hc
        rcases hc with hc0 | hc1
        · rw [hc0] at hb
          simp at hb
        · exact hrest hc1
      · simp only [List.lookup, hb, Option.isSome_some, true_iff]
        exact Or.inl (eq_of_beq hb)

theorem contents_unique_of_nodup (l : List Entry)
    (hnd : (l.map Entry.pathStr).Nodup) (j : Nat) (it : Entry)
    (hit : l.get? j = some it) (x : Entry) (hx : x ∈ l)
    (hps : x.pathStr = it.pathStr) : x = it := by
  obtain ⟨k, hk⟩ := List.mem_iff_get?.mp hx
  have hmj : (l.map Entry.pathStr).get? j = some it.pathStr := by
    rw [List.get?_map, hit, Option.map_some']
  have hmk : (l.map Entry.pathStr).get? k = some it.pathStr := by
    rw [List.get?_map, hk, Option.map_some', hps]
  have hkj : k = j :=
    List.get?_inj (List.get?_eq_some.mp hmk).1 hnd (hmk.trans hmj.symm)
  subst hkj
  rw [hit] at hk
  exact (Option.some.inj hk).symm

/-- C5: for every walk record (under the real-filesystem assumption that
relative paths are unique in one walk), the corresponding entity has
`isDescribedBy` set to the candidate descriptor id exactly when the record
is a `File` whose path does not end in the descriptor suffix and a record
with that candidate relative path exists in the same walk; a descriptor
file itself never gets `isDescribedBy`. -/
theorem c5_describedby_iff_walk (ex : String → Bool) (yam : String → Yaml)
    (md5 : String → String) (dirStr now : String) (omit_names : List String)
    (tree : FsForest) (m : Metadata) (ops : List FsOp)
    (h : create_and_write_ro_crate_metadata ex yam md5 dirStr now omit_names
        tree = .ok (m, ops))
    (hnd : ((list_directory_contents omit_names tree).map Entry.pathStr).Nodup) :
    ∀ (j : Nat) (it : Entry),
      (list_directory_contents omit_names tree).get? j = some it →
      ∃ e, m.graph.get? (j + 1) = some e ∧
        e.isDescribedBy =
          (if it.type = .file ∧ endsWithS it.pathStr descriptorSuffix = false ∧
              (stemStr it.pathStr ++ descriptorSuffix) ∈
                (list_directory_contents omit_names tree).map Entry.pathStr
            then some (stemStr it.pathStr ++ descriptorSuffix) else none) := by
  intro j it hit
  obtain ⟨hb, -⟩ := create_ok ex yam md5 dirStr now omit_names tree m ops h
  obtain ⟨es, hp, hg⟩ := buildFromContents_ok ex yam md5 dirStr now _ m hb
  obtain ⟨e0, he0, hm0⟩ := pass1_get? ex yam md5 dirStr _ es hp j it hit
  refine ⟨pass2sim (buildP2E 0 (list_directory_contents omit_names tree)) j
      (list_directory_contents omit_names tree) e0, ?_, ?_⟩
  · rw [hg]
    simp only [List.get?]
    rw [pass2_get?, he0, Option.map_some']
  · obtain ⟨-, -, -, -, -, hdb0, -, -⟩ :=
      mkEntity_ok_char ex yam md5 dirStr it e0 hm0
    have hsame : ∀ x ∈ list_directory_contents omit_names tree,
        dbCondP (buildP2E 0 (list_directory_contents omit_names tree)) j x →
        x = it := by
      intro x hx hdx
      obtain ⟨k0, itk, hk0, hps, hj0⟩ :=
        buildP2E_lookup_some x.pathStr 0 _ j hdx.2.2
      have hk0j : k0 = j := by omega
      rw [hk0j, hit] at hk0
      have hitk : it = itk := Option.some.inj hk0
      rw [← hitk] at hps
      exact contents_unique_of_nodup _ hnd j it hit x hx hps.symm
    have hall : ∀ x ∈ list_directory_contents omit_names tree,
        dbCondP (buildP2E 0 (list_directory_contents omit_names tree)) j x →
        stemStr x.pathStr ++ descriptorSuffix =
          stemStr it.pathStr ++ descriptorSuffix :=
      fun x hx hdx => by rw [hsame x hx hdx]
    rw [pass2sim_descr (buildP2E 0 (list_directory_contents omit_names tree))
      j (stemStr it.pathStr ++ descriptorSuffix)
      (list_directory_contents omit_names tree) e0 hall, hdb0]
    by_cases hcl : it.type = .file ∧
        endsWithS it.pathStr descriptorSuffix = false ∧
        (stemStr it.pathStr ++ descriptorSuffix) ∈
          (list_directory_contents omit_names tree).map Entry.pathStr
    · have hlk := buildP2E_lookup_nodup 0 _ j it hnd hit
      rw [Nat.zero_add] at hlk
      rw [if_pos hcl, if_pos (List.any_eq_true.mpr
        ⟨it, List.get?_mem hit, decide_eq_true
          ⟨⟨hcl.1, hcl.2.1⟩,
            ⟨(buildP2E_mem_iff _ 0 _).mpr hcl.2.2, hlk⟩⟩⟩)]
    · rw [if_neg hcl, if_neg (fun hany => ?_)]
      obtain ⟨x, hx, hdx⟩ := List.any_eq_true.mp hany
      have hdx' := of_decide_eq_true hdx
      have hxit := hsame x hx hdx'
      subst hxit
      exact hcl ⟨hdx'.1.1, hdx'.1.2, (buildP2E_mem_iff _ 0 _).mp hdx'.2.1⟩

/-- The walk root of the descriptor-linking scenario: `a.csv` next to its
sidecar `a.resource.yaml`. -/
def treeC5 : FsForest := .ffile "a.csv" (.ffile "a.resource.yaml" .fnil)

/-- The walk record of `a.csv` in that scenario. -/
def entryAcsv : Entry := ⟨.file, ["a.csv"], []⟩

/-- The `a.csv` entity of that scenario (no description: nothing exists on
the modelled disk, but the descriptor record is in the walk). -/
def entAcsvC5 : Entity :=
  { id := "a.csv", etype := "File", name := "a.csv",
    contentChecksum := some ("MD5", md5c "/w/p/a.csv"),
    isDescribedBy := some "a.resource.yaml" }

/-- The manifest the scenario builds. -/
def mC5 : Metadata :=
  { context := contextUri,
    graph := [rootEntity "/w/p" "T0", entAcsvC5,
      { id := "a.resource.yaml", etype := "File",
        name := "a.resource.yaml" }] }

theorem c5_describedby_iff_walk_witness :
    ∃ e, mC5.graph.get? 1 = some e ∧
      e.isDescribedBy =
        (if entryAcsv.type = .file ∧
            endsWithS entryAcsv.pathStr descriptorSuffix = false ∧
            (stemStr entryAcsv.pathStr ++ descriptorSuffix) ∈
              (list_directory_contents [] treeC5).map Entry.pathStr
          then some (stemStr entryAcsv.pathStr ++ descriptorSuffix)
          else none) :=
  c5_describedby_iff_walk exFalse yamNone md5c "/w/p" "T0" [] treeC5 mC5
    (writeMetadataOps mC5) rfl (by decide) 0 entryAcsv rfl

theorem fileEntriesOf_mem (omit_names : List String) :
    ∀ (cs : FsForest) (rp : List String) (e : Entry),
      e ∈ fileEntriesOf omit_names rp cs →
      e.root = rp ∧ e.type = .file ∧
        ∃ n, e.path = rp ++ [n] ∧ should_omit omit_names n = false
  | .fnil, rp, e, he => by simp [fileEntriesOf] at he
  | .ffile n ts, rp, e, he => by
    simp only [fileEntriesOf, List.mem_append] at he
    rcases he with hA | h1
    · by_cases ho : should_omit omit_names n = true
      · rw [if_pos ho] at hA
        simp at hA
      · rw [if_neg ho] at hA
        simp only [List.mem_singleton] at hA
        subst hA
        exact ⟨rfl, rfl, n, rfl, boolFalseOfNotTrue ho⟩
    · exact fileEntriesOf_mem omit_names ts rp e h1
  | .fdir n cs ts, rp, e, he => by
    simp only [fileEntriesOf] at he
    exact fileEntriesOf_mem omit_names ts rp e he

theorem dirEntriesOf_mem (omit_names : List String) :
    ∀ (cs : FsForest) (rp : List String) (e : Entry),
      e ∈ dirEntriesOf omit_names rp cs →
      e.root = rp ∧ e.type = .directory ∧
        ∃ n, e.path = rp ++ [n] ∧ should_omit omit_names n = false
  | .fnil, rp, e, he => by simp [dirEntriesOf] at he
  | .ffile n ts, rp, e, he => by
    simp only [dirEntriesOf] at he
    exact dirEntriesOf_mem omit_names ts rp e he
  | .fdir n cs ts, rp, e, he => by
    simp only [dirEntriesOf, List.mem_append] at he
    rcases he with hA | h1
    · by_cases ho : should_omit omit_names n = true
      · rw [if_pos ho] at hA
        simp at hA
      · rw [if_neg ho] at hA
        simp only [List.mem_singleton] at hA
        subst hA
        exact ⟨rfl, rfl, n, rfl, boolFalseOfNotTrue ho⟩
    · exact dirEntriesOf_mem omit_names ts rp e h1

theorem walkSubs_root_len (omit_names : List String) :
    ∀ (cs : FsForest) (rp : List String) (e : Entry),
      e ∈ walkSubs omit_names rp cs → rp.length < e.root.length
  | .fnil, rp, e, he => by simp [walkSubs] at he
  | .ffile n ts, rp, e, he => by
    simp only [walkSubs] at he
    exact walkSubs_root_len omit_names ts rp e he
  | .fdir n cs ts, rp, e, he => by
    simp only [walkSubs, List.mem_append] at he
    rcases he with hW | h1
    · by_cases ho : should_omit omit_names n = true
      · rw [if_pos ho] at hW
        simp at hW
      · rw [if_neg ho] at hW
        rcases List.mem_append.mp hW with hW1 | hW2
        · rcases List.mem_append.mp hW1 with hf | hd
          · rw [(fileEntriesOf_mem omit_names cs (rp ++ [n]) e hf).1]
            simp
          · rw [(dirEntriesOf_mem omit_names cs (rp ++ [n]) e hd).1]
            simp
        · have := walkSubs_root_len omit_names cs (rp ++ [n]) e hW2
          simp only [List.length_append, List.length_singleton] at this
          omega
    · exact walkSubs_root_len omit_names ts rp e h1

/-- The records of a walk whose `root` is the walk's own top directory are
exactly that directory's own files followed by its own subdirectories, in
listing order. -/
theorem walk_filter_self (omit_names : List String) (rp : List String)
    (cs : FsForest) :
    (walkChildren omit_names rp cs).filter (fun e => decide (e.root = rp)) =
      fileEntriesOf omit_names rp cs ++ dirEntriesOf omit_names rp cs := by
  unfold walkChildren
  rw [List.filter_append, List.filter_append,
    List.filter_eq_self.mpr
      (fun e he => decide_eq_true (fileEntriesOf_mem omit_names cs rp e he).1),
    List.filter_eq_self.mpr
      (fun e he => decide_eq_true (dirEntriesOf_mem omit_names cs rp e he).1),
    List.filter_eq_nil_iff.mpr
      (fun e he hc => by
        have hr := of_decide_eq_true hc
        have hlen := walkSubs_root_len omit_names cs rp e he
        rw [hr] at hlen
        omega),
    List.append_nil]

theorem mem_walk_ffile (omit_names : List String) (n : String)
    (ts : FsForest) (rp : List String) (e : Entry)
    (he : e ∈ walkChildren omit_names rp ts) :
    e ∈ walkChildren omit_names rp (.ffile n ts) := by
  unfold walkChildren at he ⊢
  simp only [fileEntriesOf, dirEntriesOf, walkSubs, List.mem_append,
    List.append_assoc, or_assoc] at he ⊢
  tauto

theorem mem_walk_fdir_ts (omit_names : List String) (n : String)
    (cs ts : FsForest) (rp : List String) (e : Entry)
    (he : e ∈ walkChildren omit_names rp ts) :
    e ∈ walkChildren omit_names rp (.fdir n cs ts) := by
  unfold walkChildren at he ⊢
  simp only [fileEntriesOf, dirEntriesOf, walkSubs, List.mem_append,
    List.append_assoc, or_assoc] at he ⊢
  tauto

theorem mem_walk_fdir_sub (omit_names : List String) (n : String)
    (cs ts : FsForest) (rp : List String) (e : Entry)
    (ho : should_omit omit_names n = false)
    (he : e ∈ walkChildren omit_names (rp ++ [n]) cs) :
    e ∈ walkChildren omit_names rp (.fdir n cs ts) := by
  unfold walkChildren at he ⊢
  simp only [fileEntriesOf, dirEntriesOf, walkSubs, ho, Bool.false_eq_true,
    if_false, List.mem_append, List.append_assoc, or_assoc] at he ⊢
  tauto

/-- Every walk record is either a direct child of the walk's top
directory, or its parent directory has its own `Directory` record in the
same walk. -/
theorem walk_parent_entry (omit_names : List String) :
    ∀ (cs : FsForest) (rp : List String) (e : Entry),
      e ∈ walkChildren omit_names rp cs →
      e.root = rp ∨
        ∃ e2, e2 ∈ walkChildren omit_names rp cs ∧ e2.type = .directory ∧
          e2.path = e.root
  | .fnil, rp, e, he => by
    simp [walkChildren, fileEntriesOf, dirEntriesOf, walkSubs] at he
  | .ffile n ts, rp, e, he => by
    unfold walkChildren at he
    simp only [fileEntriesOf, dirEntriesOf, walkSubs, List.mem_append,
      List.append_assoc, or_assoc] at he
    rcases he with hA | h1 | h2 | h3
    · left
      by_cases ho : should_omit omit_names n = true
      · rw [if_pos ho] at hA
        simp at hA
      · rw [if_neg ho] at hA
        simp only [List.mem_singleton] at hA
        subst hA
        rfl
    · exact Or.inl (fileEntriesOf_mem omit_names ts rp e h1).1
    · exact Or.inl (dirEntriesOf_mem omit_names ts rp e h2).1
    · have hts : e ∈ walkChildren omit_names rp ts := by
        unfold walkChildren
        simp [List.mem_append, h3]
      rcases walk_parent_entry omit_names ts rp e hts with h | ⟨e2, he2, ht, hp⟩
      · exact Or.inl h
      · exact Or.inr ⟨e2, mem_walk_ffile omit_names n ts rp e2 he2, ht, hp⟩
  | .fdir n cs ts, rp, e, he => by
    unfold walkChildren at he
    simp only [fileEntriesOf, dirEntriesOf, walkSubs, List.mem_append,
      List.append_assoc, or_assoc] at he
    rcases he with h1 | hD | h2 | hW | h3
    · exact Or.inl (fileEntriesOf_mem omit_names ts rp e h1).1
    · left
      by_cases ho : should_omit omit_names n = true
      · rw [if_pos ho] at hD
        simp at hD
      · rw [if_neg ho] at hD
        simp only [List.mem_singleton] at hD
        subst hD
        rfl
    · exact Or.inl (dirEntriesOf_mem omit_names ts rp e h2).1
    · by_cases ho : should_omit omit_names n = true
      · rw [if_pos ho] at hW
        simp at hW
      · rw [if_neg ho] at hW
        have hofalse : should_omit omit_names n = false := boolFalseOfNotTrue ho
        have hWc : e ∈ walkChildren omit_names (rp ++ [n]) cs := by
          unfold walkChildren
          rw [List.append_assoc]
          exact hW
        have hdmem : (⟨.directory, rp ++ [n], rp⟩ : Entry) ∈
            walkChildren omit_names rp (.fdir n cs ts) := by
          unfold walkChildren
          simp [fileEntriesOf, dirEntriesOf, walkSubs, hofalse,
            List.mem_append]
        rcases walk_parent_entry omit_names cs (rp ++ [n]) e hWc with
          h | ⟨e2, he2, ht, hp⟩
        · exact Or.inr ⟨⟨.directory, rp ++ [n], rp⟩, hdmem, rfl, h.symm ▸ rfl⟩
        · exact Or.inr ⟨e2,
            mem_walk_fdir_sub omit_names n cs ts rp e2 hofalse he2, ht, hp⟩
    · have hts : e ∈ walkChildren omit_names rp ts := by
        unfold walkChildren
        simp [List.mem_append, h3]
      rcases walk_parent_entry omit_names ts rp e hts with h | ⟨e2, he2, ht, hp⟩
      · exact Or.inl h
      · exact Or.inr ⟨e2, mem_walk_fdir_ts omit_names n cs ts rp e2 he2, ht, hp⟩

/-- If some record of a walk has parent components `rp'` other than the
walk's own top directory, then the path string of `rp'` occurs among the
walk's path strings (the parent's own `Directory` record). -/
theorem walk_count_root (omit_names : List String) (cs : FsForest)
    (rp rp' : List String) (hne : rp' ≠ rp) (e : Entry)
    (he : e ∈ walkChildren omit_names rp cs) (hr : e.root = rp') :
    joinPath rp' ∈ (walkChildren omit_names rp cs).map Entry.pathStr := by
  rcases walk_parent_entry omit_names cs rp e he with h | ⟨e2, he2, -, hp⟩
  · exact absurd (hr.symm.trans h) hne
  · have hps : Entry.pathStr e2 = joinPath rp' := by
      rw [Entry.pathStr, hp, hr]
    exact hps ▸ List.mem_map_of_mem Entry.pathStr he2

/-- When the path strings of a walk are distinct (as on a real
filesystem), the records sharing any one parent `rp'` form, in walk
order, the files of a single listing followed by its subdirectories: the
walker emits all of a directory's files before any of its
subdirectories. -/
theorem walk_filter_blocks (omit_names : List String) :
    ∀ (cs : FsForest) (rp rp' : List String),
      ((walkChildren omit_names rp cs).map Entry.pathStr).Nodup →
      (walkChildren omit_names rp cs).filter
          (fun e => decide (e.root = rp')) = [] ∨
        ∃ cs', (walkChildren omit_names rp cs).filter
            (fun e => decide (e.root = rp')) =
          fileEntriesOf omit_names rp' cs' ++ dirEntriesOf omit_names rp' cs'
  | .fnil, rp, rp', _ =>
    Or.inl (by simp [walkChildren, fileEntriesOf, dirEntriesOf, walkSubs])
  | .ffile n ts, rp, rp', hnd => by
    by_cases hrr : rp' = rp
    · subst hrr
      exact Or.inr ⟨.ffile n ts, walk_filter_self omit_names rp' (.ffile n ts)⟩
    · have hA : (if should_omit omit_names n then []
          else [(⟨.file, rp ++ [n], rp⟩ : Entry)]).filter
            (fun e => decide (e.root = rp')) = [] := by
        by_cases ho : should_omit omit_names n = true
        · rw [if_pos ho]
          rfl
        · rw [if_neg ho]
          apply List.filter_eq_nil_iff.mpr
          intro a ha hc
          simp only [List.mem_singleton] at ha
          subst ha
          exact hrr (of_decide_eq_true hc).symm
      have hstep : (walkChildren omit_names rp (.ffile n ts)).filter
            (fun e => decide (e.root = rp')) =
          (walkChildren omit_names rp ts).filter
            (fun e => decide (e.root = rp')) := by
        unfold walkChildren
        simp only [fileEntriesOf, dirEntriesOf, walkSubs, List.filter_append]
        rw [hA, List.nil_append]
      rw [hstep]
      have hsub : (walkChildren omit_names rp ts).Sublist
          (walkChildren omit_names rp (.ffile n ts)) := by
        unfold walkChildren
        simp only [fileEntriesOf, dirEntriesOf, walkSubs]
        exact ((List.sublist_append_right _ _).append
          (List.Sublist.refl _)).append (List.Sublist.refl _)
      exact walk_filter_blocks omit_names ts rp rp'
        ((hsub.map Entry.pathStr).nodup hnd)
  | .fdir n cs ts, rp, rp', hnd => by
    by_cases hrr : rp' = rp
    · subst hrr
      exact Or.inr ⟨.fdir n cs ts, walk_filter_self omit_names rp' (.fdir n cs ts)⟩
    · by_cases ho : should_omit omit_names n = true
      · have hstep : walkChildren omit_names rp (.fdir n cs ts) =
            walkChildren omit_names rp ts := by
          unfold walkChildren
          simp [fileEntriesOf, dirEntriesOf, walkSubs, ho]
        rw [hstep] at hnd ⊢
        exact walk_filter_blocks omit_names ts rp rp' hnd
      · have hof : should_omit omit_names n = false := boolFalseOfNotTrue ho
        have hdec : walkChildren omit_names rp (.fdir n cs ts) =
            fileEntriesOf omit_names rp ts ++
              ([(⟨.directory, rp ++ [n], rp⟩ : Entry)] ++
                dirEntriesOf omit_names rp ts) ++
              (walkChildren omit_names (rp ++ [n]) cs ++
                walkSubs omit_names rp ts) := by
          unfold walkChildren
          simp [fileEntriesOf, dirEntriesOf, walkSubs, hof, List.append_assoc]
        have hfA : (fileEntriesOf omit_names rp ts).filter
            (fun e => decide (e.root = rp')) = [] :=
          List.filter_eq_nil_iff.mpr (fun a ha hc =>
            hrr (by
              rw [← of_decide_eq_true hc,
                (fileEntriesOf_mem omit_names ts rp a ha).1]))
        have hfDts : (dirEntriesOf omit_names rp ts).filter
            (fun e => decide (e.root = rp')) = [] :=
          List.filter_eq_nil_iff.mpr (fun a ha hc =>
            hrr (by
              rw [← of_decide_eq_true hc,
                (dirEntriesOf_mem omit_names ts rp a ha).1]))
        have hfD : ([(⟨.directory, rp ++ [n], rp⟩ : Entry)]).filter
            (fun e => decide (e.root = rp')) = [] := by
          apply List.filter_eq_nil_iff.mpr
          intro a ha hc
          simp only [List.mem_singleton] at ha
          subst ha
          exact hrr (of_decide_eq_true hc).symm
        rw [hdec] at hnd ⊢
        simp only [List.filter_append]
        rw [hfA, hfD, hfDts]
        simp only [List.nil_append]
        by_cases hF1 : (walkChildren omit_names (rp ++ [n]) cs).filter
            (fun e => decide (e.root = rp')) = []
        · rw [hF1, List.nil_append]
          have hts : (walkChildren omit_names rp ts).filter
                (fun e => decide (e.root = rp')) =
              (walkSubs omit_names rp ts).filter
                (fun e => decide (e.root = rp')) := by
            unfold walkChildren
            simp only [List.filter_append]
            rw [hfA, hfDts]
            simp
          have hsubts : (walkChildren omit_names rp ts).Sublist
              (fileEntriesOf omit_names rp ts ++
                ([(⟨.directory, rp ++ [n], rp⟩ : Entry)] ++
                  dirEntriesOf omit_names rp ts) ++
                (walkChildren omit_names (rp ++ [n]) cs ++
                  walkSubs omit_names rp ts)) := by
            unfold walkChildren
            exact ((List.Sublist.refl _).append
              (List.sublist_append_right _ _)).append
              (List.sublist_append_right _ _)
          rcases walk_filter_blocks omit_names ts rp rp'
              ((hsubts.map Entry.pathStr).nodup hnd) with hz | ⟨cs', hcs'⟩
          · rw [hts] at hz
            exact Or.inl hz
          · rw [hts] at hcs'
            exact Or.inr ⟨cs', hcs'⟩
        · have hsubW : (walkChildren omit_names (rp ++ [n]) cs).Sublist
              (fileEntriesOf omit_names rp ts ++
                ([(⟨.directory, rp ++ [n], rp⟩ : Entry)] ++
                  dirEntriesOf omit_names rp ts) ++
                (walkChildren omit_names (rp ++ [n]) cs ++
                  walkSubs omit_names rp ts)) :=
            (List.sublist_append_left _ _).trans
              (List.sublist_append_right _ _)
          by_cases hF2 : (walkSubs omit_names rp ts).filter
              (fun e => decide (e.root = rp')) = []
          · rw [hF2, List.append_nil]
            rcases walk_filter_blocks omit_names cs (rp ++ [n]) rp'
                ((hsubW.map Entry.pathStr).nodup hnd) with hz | hb
            · exact absurd hz hF1
            · exact Or.inr hb
          · exfalso
            obtain ⟨e1, he1f⟩ := List.exists_mem_of_ne_nil _ hF1
            obtain ⟨hm1, hc1⟩ := List.mem_filter.mp he1f
            have hr1 : e1.root = rp' := of_decide_eq_true hc1
            obtain ⟨e2, he2f⟩ := List.exists_mem_of_ne_nil _ hF2
            obtain ⟨hm2, hc2⟩ := List.mem_filter.mp he2f
            have hr2 : e2.root = rp' := of_decide_eq_true hc2
            have he2w : e2 ∈ walkChildren omit_names rp ts := by
              unfold walkChildren
              simp [List.mem_append, hm2]
            have hcnt2 : 1 ≤ List.count (joinPath rp')
                ((walkChildren omit_names rp ts).map Entry.pathStr) :=
              List.count_pos_iff.mpr
                (walk_count_root omit_names ts rp rp' hrr e2 he2w hr2)
            have hle := List.nodup_iff_count_le_one.mp hnd (joinPath rp')
            simp only [List.map_append, List.count_append] at hle
            simp only [walkChildren, List.map_append, List.count_append]
              at hcnt2
            by_cases hpn : rp' = rp ++ [n]
            · have hcd : List.count (joinPath rp')
                  ([(⟨.directory, rp ++ [n], rp⟩ : Entry)].map
                    Entry.pathStr) = 1 := by
                subst hpn
                simp [Entry.pathStr, List.count_singleton]
              omega
            · have hcnt1 : 1 ≤ List.count (joinPath rp')
                  ((walkChildren omit_names (rp ++ [n]) cs).map
                    Entry.pathStr) :=
                List.count_pos_iff.mpr
                  (walk_count_root omit_names cs (rp ++ [n]) rp' hpn e1 hm1
                    hr1)
              simp only [walkChildren, List.map_append, List.count_append]
                at hcnt1 hle
              omega

/-- C10: in a walk with distinct path strings whose parent-id resolution
is unambiguous, the children of any record's directory appear in its
entity's `hasPart` exactly as the walker emitted them: the files of that
directory's listing first, then its subdirectories, each group in listing
order (`hasPart` is absent when there are no children). -/
theorem c10_files_before_dirs (ex : String → Bool) (yam : String → Yaml)
    (md5 : String → String) (dirStr now : String) (omit_names : List String)
    (tree : FsForest) (m : Metadata) (ops : List FsOp)
    (h : create_and_write_ro_crate_metadata ex yam md5 dirStr now omit_names
        tree = .ok (m, ops))
    (hnd : ((list_directory_contents omit_names tree).map Entry.pathStr).Nodup)
    (j : Nat) (it : Entry)
    (hit : (list_directory_contents omit_names tree).get? j = some it)
    (hpar : ∀ x ∈ list_directory_contents omit_names tree,
      parentId x = it.pathStr ↔ x.root = it.path) :
    ∃ e, m.graph.get? (j + 1) = some e ∧
      (∃ cs', (list_directory_contents omit_names tree).filter
            (fun x => decide (x.root = it.path)) =
          fileEntriesOf omit_names it.path cs' ++
            dirEntriesOf omit_names it.path cs') ∧
      e.hasPart =
        (if ((list_directory_contents omit_names tree).filter
            (fun x => decide (x.root = it.path))).isEmpty then none
         else some (((list_directory_contents omit_names tree).filter
            (fun x => decide (x.root = it.path))).map Entry.pathStr)) := by
  obtain ⟨hb, -⟩ := create_ok ex yam md5 dirStr now omit_names tree m ops h
  obtain ⟨es, hp, hg⟩ := buildFromContents_ok ex yam md5 dirStr now _ m hb
  obtain ⟨e0, he0, hm0⟩ := pass1_get? ex yam md5 dirStr _ es hp j it hit
  refine ⟨pass2sim (buildP2E 0 (list_directory_contents omit_names tree)) j
      (list_directory_contents omit_names tree) e0, ?_, ?_, ?_⟩
  · rw [hg]
    simp only [List.get?]
    rw [pass2_get?, he0, Option.map_some']
  · rcases walk_filter_blocks omit_names tree [] it.path hnd with hz | hbk
    · exact ⟨.fnil, by
        unfold list_directory_contents
        rw [hz]
        rfl⟩
    · exact hbk
  · obtain ⟨-, -, -, -, hhp0, -, -, -⟩ :=
      mkEntity_ok_char ex yam md5 dirStr it e0 hm0
    have hkids : hpKids (buildP2E 0 (list_directory_contents omit_names tree))
          j (list_directory_contents omit_names tree) =
        (list_directory_contents omit_names tree).filter
          (fun x => decide (x.root = it.path)) := by
      unfold hpKids
      apply List.filter_congr
      intro x hx
      apply decide_eq_decide.mpr
      constructor
      · intro hlk
        obtain ⟨k0, itk, hk0, hps, hj0⟩ :=
          buildP2E_lookup_some (parentId x) 0 _ j hlk
        have hk0j : k0 = j := by omega
        rw [hk0j, hit] at hk0
        have hitk : it = itk := Option.some.inj hk0
        exact (hpar x hx).mp (by rw [← hps, ← hitk])
      · intro hroot
        rw [(hpar x hx).mpr hroot]
        have hlk := buildP2E_lookup_nodup 0 _ j it hnd hit
        rw [Nat.zero_add] at hlk
        exact hlk
    rw [pass2sim_hasPart, hhp0, hpFold_char, hkids]
    by_cases hke : (((list_directory_contents omit_names tree).filter
        (fun x => decide (x.root = it.path))).isEmpty) = true
    · rw [if_pos hke, if_pos hke]
    · rw [if_neg hke, if_neg hke]
      simp

/-- The walk root of the ordering scenario: a directory `b` whose listing
holds the subdirectory `c` before the file `x`. -/
def treeC10 : FsForest := .fdir "b" (.fdir "c" .fnil (.ffile "x" .fnil)) .fnil

/-- The walk record of the directory `b`. -/
def entryBdir : Entry := ⟨.directory, ["b"], []⟩

/-- The entity of `b`: its `hasPart` lists the file `b/x` before the
subdirectory `b/c` although `c` precedes `x` in the listing. -/
def entBdir : Entity :=
  { id := "b", etype := "Directory", name := "b",
    hasPart := some ["b/x", "b/c"] }

/-- The entity of the file `b/x`. -/
def entBx : Entity :=
  { id := "b/x", etype := "File", name := "x",
    contentChecksum := some ("MD5", md5c "/w/p/b/x") }

/-- The entity of the empty subdirectory `b/c`. -/
def entBc : Entity := { id := "b/c", etype := "Directory", name := "c" }

/-- The manifest the ordering scenario builds. -/
def mC10 : Metadata :=
  { context := contextUri,
    graph := [rootEntity "/w/p" "T0", entBdir, entBx, entBc] }

theorem c10_files_before_dirs_witness :
    ∃ e, mC10.graph.get? 1 = some e ∧
      (∃ cs', (list_directory_contents [] treeC10).filter
            (fun x => decide (x.root = entryBdir.path)) =
          fileEntriesOf [] entryBdir.path cs' ++
            dirEntriesOf [] entryBdir.path cs') ∧
      e.hasPart =
        (if ((list_directory_contents [] treeC10).filter
            (fun x => decide (x.root = entryBdir.path))).isEmpty then none
         else some (((list_directory_contents [] treeC10).filter
            (fun x => decide (x.root = entryBdir.path))).map Entry.pathStr)) :=
  c10_files_before_dirs exFalse yamNone md5c "/w/p" "T0" [] treeC10 mC10
    (writeMetadataOps mC10) rfl (by decide) 0 entryBdir rfl (by decide)
